import Mathlib

set_option maxHeartbeats 1000000
set_option maxRecDepth 10000

/-!
Shallow embedding of the lyric-alignment engine of `src/align_whisper.py`.

Python strings are modelled as `List Char`, Python floats as `ℚ`, and the
JSON-ish dictionaries as Lean structures.  All definitions are executable and
follow the source line by line; the loop state (the results list and the
position pointer) is threaded explicitly through a fold.
-/

/-- Python regex class `\w` as used by `normalize_text`: alphanumeric or
underscore. -/
def isWordChar (c : Char) : Bool := c.isAlphanum || c = '_'

/-- Replace each maximal whitespace run by one space, as
`re.sub(r'\s+', ' ', text)` does; the flag records whether the previous
character was whitespace. -/
def collapseWsAux : List Char → Bool → List Char
  | [], _ => []
  | c :: cs, prevWs =>
    if c.isWhitespace then
      if prevWs then collapseWsAux cs true else ' ' :: collapseWsAux cs true
    else c :: collapseWsAux cs false

/-- `re.sub(r'\s+', ' ', text)`. -/
def collapseWs (t : List Char) : List Char := collapseWsAux t false

/-- Python `str.strip()`: drop leading and trailing whitespace. -/
def stripText (t : List Char) : List Char :=
  (((t.dropWhile Char.isWhitespace).reverse).dropWhile Char.isWhitespace).reverse

/-- `normalize_text`: lower-case, drop every character that is neither a word
character nor whitespace, collapse whitespace runs to single spaces, strip. -/
def normalize_text (text : List Char) : List Char :=
  stripText (collapseWs ((text.map Char.toLower).filter
    (fun c => isWordChar c || c.isWhitespace)))

/-- Helper for `splitWs`; the accumulator holds the current word reversed. -/
def splitWsAux : List Char → List Char → List (List Char)
  | [], acc => if acc.isEmpty then [] else [acc.reverse]
  | c :: cs, acc =>
    if c.isWhitespace then
      if acc.isEmpty then splitWsAux cs [] else acc.reverse :: splitWsAux cs []
    else splitWsAux cs (c :: acc)

/-- Python `str.split()` (no argument): whitespace-separated words, empty
chunks dropped. -/
def splitWs (t : List Char) : List (List Char) := splitWsAux t []

/-- `word_similarity`: 1.0 when the lower-cased words are equal, otherwise the
Jaccard similarity of the two character sets, and 0.0 when either set is
empty. -/
def word_similarity (w1 w2 : List Char) : ℚ :=
  let l1 := w1.map Char.toLower
  let l2 := w2.map Char.toLower
  if l1 = l2 then 1
  else
    let chars1 := l1.toFinset
    let chars2 := l2.toFinset
    if chars1 = ∅ ∨ chars2 = ∅ then 0
    else ((chars1 ∩ chars2).card : ℚ) / ((chars1 ∪ chars2).card : ℚ)

/-- A transcript segment `{'text': …, 'start': …, 'end': …}`. -/
structure Segment where
  text : List Char
  start : ℚ
  end_ : ℚ
  deriving DecidableEq

/-- An entry of `words_timeline`: `{'word': …, 'start': …, 'end': …}`. -/
structure WordToken where
  word : List Char
  start : ℚ
  end_ : ℚ
  deriving DecidableEq

/-- An element of the output list: `{'line': …, 'start': …, 'end': …}`,
with `none` for Python `None`. -/
structure AlignmentResult where
  line : List Char
  start : Option ℚ
  end_ : Option ℚ
  deriving DecidableEq

/-- Junk token used as the default of `List.getD`; every lookup in the
development is guarded to be in bounds, so it is never consulted. -/
def dTok : WordToken := ⟨[], 0, 0⟩

/-- Tokens contributed by one segment: its normalized words, each spanning an
equal share of the segment's duration.  A segment with no words is skipped
(`continue`), so the division is always by a positive word count. -/
def tokensOf (seg : Segment) : List WordToken :=
  let seg_words := splitWs (normalize_text seg.text)
  if seg_words = [] then []
  else
    let time_per_word := (seg.end_ - seg.start) / (seg_words.length : ℚ)
    (List.range seg_words.length).map (fun i =>
      ⟨seg_words.getD i [], seg.start + (i : ℚ) * time_per_word,
        seg.start + (i : ℚ) * time_per_word + time_per_word⟩)

/-- `words_timeline`: every segment's tokens concatenated in segment order. -/
def buildTimeline (transcript_segments : List Segment) : List WordToken :=
  (transcript_segments.map tokensOf).flatten

/-- Python `' '.join(…)`. -/
def joinSpace (ts : List (List Char)) : List Char := List.intercalate [' '] ts

/-- `w` starts the list `t` (Python `str.startswith`, used to model `in`). -/
def startsWithB : List Char → List Char → Bool
  | [], _ => true
  | _ :: _, [] => false
  | c :: cs, d :: ds => c == d && startsWithB cs ds

/-- Python substring containment `w in t`: `w` occurs contiguously in `t`. -/
def hasSubstring : List Char → List Char → Bool
  | w, [] => w.isEmpty
  | w, c :: cs => startsWithB w (c :: cs) || hasSubstring w cs

/-- `first_few_lyrics.split()`: the non-blank lines among the first three
lyric lines, normalized, joined with spaces and split into words. -/
def firstFewWords (lyrics_lines : List (List Char)) : List (List Char) :=
  splitWs (joinSpace (((lyrics_lines.take 3).filter
    (fun l => !(stripText l).isEmpty)).map normalize_text))

/-- `test_window`: up to 15 consecutive timeline words starting at index `i`,
joined into one string. -/
def testWindow (tl : List WordToken) (i : Nat) : List Char :=
  joinSpace ((List.range (min 15 (tl.length - i))).map
    (fun k => (tl.getD (i + k) dTok).word))

/-- The anchor search (`best_start_pos`): every candidate index in
`[0, min 50 |tl|)` is scored by how many reference words occur as substrings
of its window; the best score is tracked with strict `>` starting from
`(0, 0)`, so ties and the all-zero case keep the smallest index. -/
def anchorPos (tl : List WordToken) (lyrics_lines : List (List Char)) : Nat :=
  ((List.range (min 50 tl.length)).foldl
    (fun (b : Nat × Nat) i =>
      let score := ((firstFewWords lyrics_lines).filter
        (fun w => hasSubstring w (testWindow tl i))).length
      if score > b.1 then (score, i) else b) (0, 0)).2

/-- Per-candidate score of a line at offset `j`: the sum over the lyric words
of their similarity with the corresponding timeline word, with the source's
in-bounds guard. -/
def scoreAt (tl : List WordToken) (lyric_words : List (List Char)) (j : Nat) : ℚ :=
  ((List.range lyric_words.length).map (fun i =>
    if j + i < tl.length then
      word_similarity (lyric_words.getD i []) ((tl.getD (j + i) dTok).word)
    else 0)).sum

/-- The forward search of the line matcher: candidates run from the current
pointer over a window of 50, breaking as soon as the line no longer fits
(`start_idx + len(lyric_words) > len(words_timeline)`); the best score is
tracked with strict `>` starting from score `0` at the current pointer. -/
def searchBest (tl : List WordToken) (lyric_words : List (List Char)) (pos : Nat) : ℚ × Nat :=
  ((List.range' pos (min (pos + 50) tl.length - pos)).takeWhile
      (fun j => decide (j + lyric_words.length ≤ tl.length))).foldl
    (fun b j => if scoreAt tl lyric_words j > b.1 then (scoreAt tl lyric_words j, j) else b)
    (0, pos)

/-- One iteration of the `for line in lyrics_lines` loop.  The state is the
pair (results so far, current position pointer). -/
def stepLine (tl : List WordToken) (acc : List AlignmentResult × Nat)
    (line : List Char) : List AlignmentResult × Nat :=
  let l := stripText line
  if l = [] then (acc.1 ++ [⟨[], none, none⟩], acc.2)
  else
    let lyric_words := splitWs (normalize_text l)
    if lyric_words = [] then (acc.1 ++ [⟨l, none, none⟩], acc.2)
    else
      let best := searchBest tl lyric_words acc.2
      if best.2 < tl.length then
        let end_idx := min (best.2 + lyric_words.length - 1) (tl.length - 1)
        (acc.1 ++ [⟨l, some ((tl.getD best.2 dTok).start),
          some ((tl.getD end_idx dTok).end_)⟩], end_idx + 1)
      else
        let lastEnd : Option ℚ :=
          match acc.1.getLast? with
          | some r => r.end_
          | none => none
        match lastEnd with
        | some e => (acc.1 ++ [⟨l, some e, some (e + 2)⟩], acc.2)
        | none =>
          let last_time : ℚ :=
            match acc.1.getLast? with
            | some r =>
              match r.start with
              | some s => s
              | none => 0
            | none => 0
          (acc.1 ++ [⟨l, some last_time, some (last_time + 2)⟩], acc.2)

/-- `fallback_align`: build the timeline; with an empty timeline every line
gets null timing; otherwise process the lines in order starting from the
anchor position. -/
def fallback_align (transcript_segments : List Segment)
    (lyrics_lines : List (List Char)) : List AlignmentResult :=
  let words_timeline := buildTimeline transcript_segments
  if words_timeline = [] then
    lyrics_lines.map (fun l => ⟨l, none, none⟩)
  else
    (lyrics_lines.foldl (stepLine words_timeline)
      ([], anchorPos words_timeline lyrics_lines)).1

/-! ### Word similarity (C2) -/

lemma word_similarity_nonneg (w1 w2 : List Char) : 0 ≤ word_similarity w1 w2 := by
  simp only [word_similarity]
  split_ifs with h1 h2
  · norm_num
  · exact le_rfl
  · positivity

lemma word_similarity_le_one (w1 w2 : List Char) : word_similarity w1 w2 ≤ 1 := by
  simp only [word_similarity]
  split_ifs with h1 h2
  · exact le_rfl
  · norm_num
  · push_neg at h2
    obtain ⟨h2a, h2b⟩ := h2
    have hsub : ((w1.map Char.toLower).toFinset ∩ (w2.map Char.toLower).toFinset) ⊆
        ((w1.map Char.toLower).toFinset ∪ (w2.map Char.toLower).toFinset) :=
      Finset.inter_subset_left.trans Finset.subset_union_left
    have hpos : (0 : ℚ) <
        (((w1.map Char.toLower).toFinset ∪ (w2.map Char.toLower).toFinset).card : ℚ) := by
      have hne : ((w1.map Char.toLower).toFinset ∪ (w2.map Char.toLower).toFinset).Nonempty := by
        rcases Finset.nonempty_iff_ne_empty.mpr h2a with ⟨x, hx⟩
        exact ⟨x, Finset.mem_union_left _ hx⟩
      exact_mod_cast Finset.card_pos.mpr hne
    rw [div_le_one hpos]
    exact_mod_cast Finset.card_le_card hsub

lemma word_similarity_eq_one_iff (w1 w2 : List Char) :
    word_similarity w1 w2 = 1 ↔
      (w1.map Char.toLower).toFinset = (w2.map Char.toLower).toFinset := by
  simp only [word_similarity]
  by_cases h : w1.map Char.toLower = w2.map Char.toLower
  · simp [h]
  · rw [if_neg h]
    by_cases h2 : (w1.map Char.toLower).toFinset = ∅ ∨ (w2.map Char.toLower).toFinset = ∅
    · rw [if_pos h2]
      constructor
      · intro h01; exact absurd h01 (by norm_num)
      · intro hset
        exfalso
        rcases h2 with h2 | h2
        · have h2' : (w2.map Char.toLower).toFinset = ∅ := by rw [← hset]; exact h2
          rw [List.toFinset_eq_empty_iff] at h2 h2'
          exact h (h2.trans h2'.symm)
        · have h2' : (w1.map Char.toLower).toFinset = ∅ := by rw [hset]; exact h2
          rw [List.toFinset_eq_empty_iff] at h2 h2'
          exact h (h2'.trans h2.symm)
    · rw [if_neg h2]
      push_neg at h2
      obtain ⟨h2a, h2b⟩ := h2
      have hsub : ((w1.map Char.toLower).toFinset ∩ (w2.map Char.toLower).toFinset) ⊆
          ((w1.map Char.toLower).toFinset ∪ (w2.map Char.toLower).toFinset) :=
        Finset.inter_subset_left.trans Finset.subset_union_left
      have hne : ((((w1.map Char.toLower).toFinset ∪ (w2.map Char.toLower).toFinset).card : ℚ)) ≠ 0 := by
        have hne2 : ((w1.map Char.toLower).toFinset ∪ (w2.map Char.toLower).toFinset).Nonempty := by
          rcases Finset.nonempty_iff_ne_empty.mpr h2a with ⟨x, hx⟩
          exact ⟨x, Finset.mem_union_left _ hx⟩
        have := Finset.card_pos.mpr hne2
        exact_mod_cast this.ne'
      rw [div_eq_one_iff_eq hne, Nat.cast_inj]
      constructor
      · intro hcard
        have heq : ((w1.map Char.toLower).toFinset ∩ (w2.map Char.toLower).toFinset) =
            ((w1.map Char.toLower).toFinset ∪ (w2.map Char.toLower).toFinset) :=
          Finset.eq_of_subset_of_card_le hsub (le_of_eq hcard.symm)
        have hA : (w1.map Char.toLower).toFinset ⊆
            ((w1.map Char.toLower).toFinset ∩ (w2.map Char.toLower).toFinset) := by
          rw [heq]; exact Finset.subset_union_left
        have hB : (w2.map Char.toLower).toFinset ⊆
            ((w1.map Char.toLower).toFinset ∩ (w2.map Char.toLower).toFinset) := by
          rw [heq]; exact Finset.subset_union_right
        exact Finset.Subset.antisymm (hA.trans Finset.inter_subset_right)
          (hB.trans Finset.inter_subset_left)
      · intro hset
        rw [hset, Finset.inter_self, Finset.union_self]

lemma word_similarity_comm (w1 w2 : List Char) :
    word_similarity w1 w2 = word_similarity w2 w1 := by
  simp only [word_similarity]
  by_cases h : w1.map Char.toLower = w2.map Char.toLower
  · rw [if_pos h, if_pos h.symm]
  · have h' : ¬ w2.map Char.toLower = w1.map Char.toLower := fun hh => h hh.symm
    rw [if_neg h, if_neg h']
    by_cases h2 : (w1.map Char.toLower).toFinset = ∅ <;>
      by_cases h3 : (w2.map Char.toLower).toFinset = ∅ <;>
        simp [h2, h3, Finset.inter_comm, Finset.union_comm]

/-! ### Claim-side (specification) definitions

These follow the wording of the specification rather than the source; the
refinement theorems below compare them with the source embedding. -/

/-- Specification reading of the per-candidate line score: the plain sum
`Σ_{i<m} WordSimilarity(W[i], timeline[j+i].word)`, with no bounds guard. -/
def lineScoreSpec (tl : List WordToken) (W : List (List Char)) (j : Nat) : ℚ :=
  ((List.range W.length).map (fun i =>
    word_similarity (W.getD i []) ((tl.getD (j + i) dTok).word))).sum

/-- Specification reading of the line search: candidate offsets `j` range over
`[pointer, min(pointer+50, |timeline|))` restricted to those with
`j + m ≤ |timeline|`; the best score is tracked with strict `>`, and ties and
the no-candidate case default to the current pointer with score 0. -/
def bestPairSpec (tl : List WordToken) (W : List (List Char)) (pos : Nat) : ℚ × Nat :=
  ((List.range' pos (min (pos + 50) tl.length - pos)).filter
      (fun j => decide (j + W.length ≤ tl.length))).foldl
    (fun b j => if lineScoreSpec tl W j > b.1 then (lineScoreSpec tl W j, j) else b)
    (0, pos)

/-- The offset chosen by the specification reading of the line search. -/
def bestOffsetSpec (tl : List WordToken) (W : List (List Char)) (pos : Nat) : Nat :=
  (bestPairSpec tl W pos).2

/-- Specification reading of the anchor search, with the amended reference
bag: the non-blank lines among the first 3 lyric lines, normalized and
concatenated; candidate `i` is scored by counting the reference words that
occur as substrings of the window joining up to 15 consecutive timeline words
from `i`; strict `>` keeps the smallest index; default 0. -/
def anchorSpec (tl : List WordToken) (lyrics_lines : List (List Char)) : Nat :=
  let R := splitWs (joinSpace (((lyrics_lines.take 3).filter
    (fun l => !(stripText l).isEmpty)).map normalize_text))
  ((List.range (min 50 tl.length)).foldl
    (fun (b : Nat × Nat) i =>
      let w := joinSpace (((tl.drop i).take 15).map (fun t => t.word))
      let score := R.countP (fun x => hasSubstring x w)
      if score > b.1 then (score, i) else b) (0, 0)).2

/-- The anchor search exactly as the original claim words it: the reference
bag is built from up to the first 3 non-blank lines of the whole lyric list
(filter the blank lines away first, then take 3).  Everything else is as in
`anchorSpec`. -/
def anchorSpecOrig (tl : List WordToken) (lyrics_lines : List (List Char)) : Nat :=
  let R := splitWs (joinSpace (((lyrics_lines.filter
    (fun l => !(stripText l).isEmpty)).take 3).map normalize_text))
  ((List.range (min 50 tl.length)).foldl
    (fun (b : Nat × Nat) i =>
      let w := joinSpace (((tl.drop i).take 15).map (fun t => t.word))
      let score := R.countP (fun x => hasSubstring x w)
      if score > b.1 then (score, i) else b) (0, 0)).2

/-! ### Generic helper lemmas about the best-tracking folds -/

/-- A fold whose step either keeps the accumulator or installs the current
list element in the second component ends with the initial second component
or an element of the list. -/
lemma foldl_choice_snd {α : Type} (g : α × Nat → Nat → α × Nat)
    (hg : ∀ b j, (g b j).2 = j ∨ g b j = b) :
    ∀ (l : List Nat) (b : α × Nat), (l.foldl g b).2 = b.2 ∨ (l.foldl g b).2 ∈ l := by
  intro l
  induction l with
  | nil => intro b; exact Or.inl rfl
  | cons j t ih =>
    intro b
    rw [List.foldl_cons]
    rcases ih (g b j) with h | h
    · rcases hg b j with h2 | h2
      · right; rw [h, h2]; exact List.mem_cons_self j t
      · left; rw [h, h2]
    · right; exact List.mem_cons_of_mem _ h

/-- The step function of the best-tracking folds satisfies the hypothesis of
`foldl_choice_snd`. -/
lemma bestStep_choice {α : Type} [LinearOrder α] (f : Nat → α) :
    ∀ (b : α × Nat) (j : Nat),
      ((if f j > b.1 then (f j, j) else b) : α × Nat).2 = j ∨
        (if f j > b.1 then (f j, j) else b) = b := by
  intro b j
  by_cases h : f j > b.1
  · left; rw [if_pos h]
  · right; rw [if_neg h]

/-- On `range'`, breaking at the first offset that does not fit is the same
as filtering the offsets that fit, because the bound is monotone along the
strictly increasing candidates. -/
lemma takeWhile_range'_le_eq_filter (m n : Nat) :
    ∀ (k s : Nat),
      (List.range' s k).takeWhile (fun j => decide (j + m ≤ n)) =
        (List.range' s k).filter (fun j => decide (j + m ≤ n)) := by
  intro k
  induction k with
  | zero => intro s; rfl
  | succ k ih =>
    intro s
    rw [List.range'_succ]
    by_cases h : s + m ≤ n
    · simp [List.takeWhile_cons, List.filter_cons, h, ih]
    · have hnil : List.filter (fun j => decide (j + m ≤ n)) (List.range' (s + 1) k) = [] := by
        rw [List.filter_eq_nil_iff]
        intro j hj
        have hs : s + 1 ≤ j := (List.mem_range'_1.mp hj).1
        simp only [decide_eq_true_eq]
        omega
      simp [List.takeWhile_cons, List.filter_cons, h, hnil]

/-- The source's forward search computes exactly the specification's
best-score pair. -/
lemma searchBest_eq_bestPairSpec (tl : List WordToken) (W : List (List Char)) (pos : Nat) :
    searchBest tl W pos = bestPairSpec tl W pos := by
  rw [searchBest, bestPairSpec, takeWhile_range'_le_eq_filter]
  apply List.foldl_ext
  intro b j hj
  have hjle : j + W.length ≤ tl.length := by
    have := List.of_mem_filter hj
    simpa using this
  have hsc : scoreAt tl W j = lineScoreSpec tl W j := by
    rw [scoreAt, lineScoreSpec]
    congr 1
    apply List.map_congr_left
    intro i hi
    rw [if_pos]
    have : i < W.length := List.mem_range.mp hi
    omega
  rw [hsc]

/-- The chosen offset never lies before the current pointer. -/
lemma searchBest_snd_ge (tl : List WordToken) (W : List (List Char)) (pos : Nat) :
    pos ≤ (searchBest tl W pos).2 := by
  rw [searchBest, takeWhile_range'_le_eq_filter]
  rcases foldl_choice_snd _ (bestStep_choice (scoreAt tl W)) _ (0, pos) with h | h
  · rw [h]
  · have := List.mem_range'_1.mp (List.mem_of_mem_filter h)
    exact this.1

/-- With a live pointer the chosen offset stays inside the timeline. -/
lemma searchBest_snd_lt (tl : List WordToken) (W : List (List Char)) (pos : Nat)
    (h : pos < tl.length) : (searchBest tl W pos).2 < tl.length := by
  rw [searchBest, takeWhile_range'_le_eq_filter]
  rcases foldl_choice_snd _ (bestStep_choice (scoreAt tl W)) _ (0, pos) with h1 | h1
  · rw [h1]; exact h
  · have hmem := List.mem_range'_1.mp (List.mem_of_mem_filter h1)
    have hmin1 : min (pos + 50) tl.length ≤ tl.length := min_le_right _ _
    have hmin2 : pos ≤ min (pos + 50) tl.length := le_min (by omega) (by omega)
    omega

/-- With an exhausted pointer the search degenerates to `(0, pos)`. -/
lemma searchBest_of_exhausted (tl : List WordToken) (W : List (List Char)) (pos : Nat)
    (h : tl.length ≤ pos) : searchBest tl W pos = (0, pos) := by
  rw [searchBest]
  have hmin : min (pos + 50) tl.length ≤ tl.length := min_le_right _ _
  have h0 : min (pos + 50) tl.length - pos = 0 := by omega
  rw [h0]
  rfl

/-! ### Branch lemmas for the per-line step -/

lemma stepLine_blank (tl : List WordToken) (res : List AlignmentResult) (pos : Nat)
    (line : List Char) (h : stripText line = []) :
    stepLine tl (res, pos) line = (res ++ [⟨[], none, none⟩], pos) := by
  simp [stepLine, h]

lemma stepLine_nowords (tl : List WordToken) (res : List AlignmentResult) (pos : Nat)
    (line : List Char) (h1 : stripText line ≠ [])
    (h2 : splitWs (normalize_text (stripText line)) = []) :
    stepLine tl (res, pos) line = (res ++ [⟨stripText line, none, none⟩], pos) := by
  simp [stepLine, h1, h2]

lemma stepLine_matched (tl : List WordToken) (res : List AlignmentResult) (pos : Nat)
    (line : List Char) (h1 : stripText line ≠ [])
    (h2 : splitWs (normalize_text (stripText line)) ≠ [])
    (h3 : pos < tl.length) :
    stepLine tl (res, pos) line =
      (res ++ [⟨stripText line,
        some ((tl.getD (searchBest tl (splitWs (normalize_text (stripText line))) pos).2 dTok).start),
        some ((tl.getD (min ((searchBest tl (splitWs (normalize_text (stripText line))) pos).2 +
          (splitWs (normalize_text (stripText line))).length - 1) (tl.length - 1)) dTok).end_)⟩],
        min ((searchBest tl (splitWs (normalize_text (stripText line))) pos).2 +
          (splitWs (normalize_text (stripText line))).length - 1) (tl.length - 1) + 1) := by
  have hb := searchBest_snd_lt tl (splitWs (normalize_text (stripText line))) pos h3
  simp [stepLine, h1, h2, hb]

lemma stepLine_gap_end (tl : List WordToken) (res : List AlignmentResult) (pos : Nat)
    (line : List Char) (r : AlignmentResult) (e : ℚ) (h1 : stripText line ≠ [])
    (h2 : splitWs (normalize_text (stripText line)) ≠ [])
    (h3 : tl.length ≤ pos) (h4 : res.getLast? = some r) (h5 : r.end_ = some e) :
    stepLine tl (res, pos) line = (res ++ [⟨stripText line, some e, some (e + 2)⟩], pos) := by
  have hsb := searchBest_of_exhausted tl (splitWs (normalize_text (stripText line))) pos h3
  simp [stepLine, h1, h2, hsb, Nat.not_lt.mpr h3, h4, h5]

lemma stepLine_gap_start (tl : List WordToken) (res : List AlignmentResult) (pos : Nat)
    (line : List Char) (r : AlignmentResult) (s : ℚ) (h1 : stripText line ≠ [])
    (h2 : splitWs (normalize_text (stripText line)) ≠ [])
    (h3 : tl.length ≤ pos) (h4 : res.getLast? = some r) (h5 : r.end_ = none)
    (h6 : r.start = some s) :
    stepLine tl (res, pos) line = (res ++ [⟨stripText line, some s, some (s + 2)⟩], pos) := by
  have hsb := searchBest_of_exhausted tl (splitWs (normalize_text (stripText line))) pos h3
  simp [stepLine, h1, h2, hsb, Nat.not_lt.mpr h3, h4, h5, h6]

lemma stepLine_gap_null (tl : List WordToken) (res : List AlignmentResult) (pos : Nat)
    (line : List Char) (r : AlignmentResult) (h1 : stripText line ≠ [])
    (h2 : splitWs (normalize_text (stripText line)) ≠ [])
    (h3 : tl.length ≤ pos) (h4 : res.getLast? = some r) (h5 : r.end_ = none)
    (h6 : r.start = none) :
    stepLine tl (res, pos) line = (res ++ [⟨stripText line, some 0, some (0 + 2)⟩], pos) := by
  have hsb := searchBest_of_exhausted tl (splitWs (normalize_text (stripText line))) pos h3
  simp [stepLine, h1, h2, hsb, Nat.not_lt.mpr h3, h4, h5, h6]

lemma stepLine_gap_empty (tl : List WordToken) (res : List AlignmentResult) (pos : Nat)
    (line : List Char) (h1 : stripText line ≠ [])
    (h2 : splitWs (normalize_text (stripText line)) ≠ [])
    (h3 : tl.length ≤ pos) (h4 : res.getLast? = none) :
    stepLine tl (res, pos) line = (res ++ [⟨stripText line, some 0, some (0 + 2)⟩], pos) := by
  have hsb := searchBest_of_exhausted tl (splitWs (normalize_text (stripText line))) pos h3
  simp [stepLine, h1, h2, hsb, Nat.not_lt.mpr h3, h4]

/-- Every step appends exactly one result, whose stored line text is the
stripped input line. -/
lemma stepLine_shape (tl : List WordToken) (res : List AlignmentResult) (pos : Nat)
    (line : List Char) :
    ∃ r p2, stepLine tl (res, pos) line = (res ++ [r], p2) ∧ r.line = stripText line := by
  by_cases h1 : stripText line = []
  · exact ⟨⟨[], none, none⟩, pos, stepLine_blank tl res pos line h1, by rw [h1]⟩
  · by_cases h2 : splitWs (normalize_text (stripText line)) = []
    · exact ⟨⟨stripText line, none, none⟩, pos, stepLine_nowords tl res pos line h1 h2, rfl⟩
    · by_cases h3 : pos < tl.length
      · exact ⟨_, _, stepLine_matched tl res pos line h1 h2 h3, rfl⟩
      · rcases hr : res.getLast? with _ | r
        · exact ⟨_, _, stepLine_gap_empty tl res pos line h1 h2 (by omega) hr, rfl⟩
        · rcases he : r.end_ with _ | e
          · rcases hs : r.start with _ | s
            · exact ⟨_, _, stepLine_gap_null tl res pos line r h1 h2 (by omega) hr he hs, rfl⟩
            · exact ⟨_, _, stepLine_gap_start tl res pos line r s h1 h2 (by omega) hr he hs, rfl⟩
          · exact ⟨_, _, stepLine_gap_end tl res pos line r e h1 h2 (by omega) hr he, rfl⟩

/-- The pointer never decreases over one step. -/
lemma stepLine_snd_ge (tl : List WordToken) (res : List AlignmentResult) (pos : Nat)
    (line : List Char) : pos ≤ (stepLine tl (res, pos) line).2 := by
  by_cases h1 : stripText line = []
  · rw [stepLine_blank tl res pos line h1]
  · by_cases h2 : splitWs (normalize_text (stripText line)) = []
    · rw [stepLine_nowords tl res pos line h1 h2]
    · by_cases h3 : pos < tl.length
      · rw [stepLine_matched tl res pos line h1 h2 h3]
        have hge := searchBest_snd_ge tl (splitWs (normalize_text (stripText line))) pos
        have hm : 1 ≤ (splitWs (normalize_text (stripText line))).length :=
          List.length_pos.mpr h2
        simp only
        omega
      · rcases hr : res.getLast? with _ | r
        · rw [stepLine_gap_empty tl res pos line h1 h2 (by omega) hr]
        · rcases he : r.end_ with _ | e
          · rcases hs : r.start with _ | s
            · rw [stepLine_gap_null tl res pos line r h1 h2 (by omega) hr he hs]
            · rw [stepLine_gap_start tl res pos line r s h1 h2 (by omega) hr he hs]
          · rw [stepLine_gap_end tl res pos line r e h1 h2 (by omega) hr he]

/-- The pointer never decreases over a whole pass. -/
lemma foldl_stepLine_snd_ge (tl : List WordToken) :
    ∀ (lyrics : List (List Char)) (st : List AlignmentResult × Nat),
      st.2 ≤ (lyrics.foldl (stepLine tl) st).2 := by
  intro lyrics
  induction lyrics with
  | nil => intro st; exact le_rfl
  | cons line rest ih =>
    intro st
    rw [List.foldl_cons]
    obtain ⟨res, pos⟩ := st
    exact le_trans (stepLine_snd_ge tl res pos line) (ih (stepLine tl (res, pos) line))

/-! ### Timeline well-formedness -/

lemma tokensOf_bounds (seg : Segment) (h : seg.start ≤ seg.end_) :
    ∀ t ∈ tokensOf seg, seg.start ≤ t.start ∧ t.start ≤ t.end_ ∧ t.end_ ≤ seg.end_ := by
  intro t ht
  simp only [tokensOf] at ht
  by_cases hw : splitWs (normalize_text seg.text) = []
  · rw [if_pos hw] at ht
    exact absurd ht (List.not_mem_nil t)
  · rw [if_neg hw] at ht
    obtain ⟨i, hi, rfl⟩ := List.mem_map.mp ht
    have hik : i < (splitWs (normalize_text seg.text)).length := List.mem_range.mp hi
    have hkpos : 0 < (splitWs (normalize_text seg.text)).length := List.length_pos.mpr hw
    have hk0 : ((splitWs (normalize_text seg.text)).length : ℚ) ≠ 0 := by
      exact_mod_cast hkpos.ne'
    have htpw : 0 ≤ (seg.end_ - seg.start) / ((splitWs (normalize_text seg.text)).length : ℚ) := by
      apply div_nonneg (by linarith)
      positivity
    have hi0 : 0 ≤ (i : ℚ) * ((seg.end_ - seg.start) /
        ((splitWs (normalize_text seg.text)).length : ℚ)) :=
      mul_nonneg (by positivity) htpw
    refine ⟨?_, ?_, ?_⟩
    · dsimp only; linarith
    · dsimp only; linarith
    · dsimp only
      have hcast : ((i : ℚ) + 1) ≤ ((splitWs (normalize_text seg.text)).length : ℚ) := by
        exact_mod_cast hik
      have hkey : ((splitWs (normalize_text seg.text)).length : ℚ) *
          ((seg.end_ - seg.start) / ((splitWs (normalize_text seg.text)).length : ℚ)) =
          seg.end_ - seg.start := by
        field_simp
      have hmul := mul_le_mul_of_nonneg_right hcast htpw
      have hexp : ((i : ℚ) + 1) * ((seg.end_ - seg.start) /
          ((splitWs (normalize_text seg.text)).length : ℚ)) =
          (i : ℚ) * ((seg.end_ - seg.start) /
            ((splitWs (normalize_text seg.text)).length : ℚ)) +
          (seg.end_ - seg.start) / ((splitWs (normalize_text seg.text)).length : ℚ) := by
        ring
      rw [hexp] at hmul
      linarith

lemma tokensOf_pairwise (seg : Segment) (h : seg.start ≤ seg.end_) :
    (tokensOf seg).Pairwise (fun a b => a.start ≤ b.start) := by
  simp only [tokensOf]
  by_cases hw : splitWs (normalize_text seg.text) = []
  · rw [if_pos hw]; exact List.Pairwise.nil
  · rw [if_neg hw, List.pairwise_map]
    have hkpos : 0 < (splitWs (normalize_text seg.text)).length := List.length_pos.mpr hw
    have htpw : 0 ≤ (seg.end_ - seg.start) / ((splitWs (normalize_text seg.text)).length : ℚ) := by
      apply div_nonneg (by linarith)
      positivity
    apply List.Pairwise.imp ?_ (List.pairwise_lt_range _)
    intro a b hab
    dsimp only
    have hc : (a : ℚ) ≤ (b : ℚ) := by exact_mod_cast hab.le
    have := mul_le_mul_of_nonneg_right hc htpw
    linarith

lemma buildTimeline_wf (segs : List Segment)
    (h1 : ∀ s ∈ segs, s.start ≤ s.end_)
    (h2 : List.Pairwise (fun a b => a.end_ ≤ b.start) segs) :
    (∀ t ∈ buildTimeline segs, t.start ≤ t.end_) ∧
      List.Pairwise (fun a b => a.start ≤ b.start) (buildTimeline segs) := by
  constructor
  · intro t ht
    rw [buildTimeline] at ht
    obtain ⟨l, hl, htl⟩ := List.mem_flatten.mp ht
    obtain ⟨seg, hseg, rfl⟩ := List.mem_map.mp hl
    exact (tokensOf_bounds seg (h1 seg hseg) t htl).2.1
  · rw [buildTimeline, List.pairwise_flatten]
    constructor
    · intro l hl
      obtain ⟨seg, hseg, rfl⟩ := List.mem_map.mp hl
      exact tokensOf_pairwise seg (h1 seg hseg)
    · rw [List.pairwise_map]
      apply List.Pairwise.imp_of_mem ?_ h2
      intro a b ha hb hab x hx y hy
      have hxa := tokensOf_bounds a (h1 a ha) x hx
      have hyb := tokensOf_bounds b (h1 b hb) y hy
      linarith [hxa.2.1, hxa.2.2, hyb.1]

lemma timeline_mono (tl : List WordToken)
    (hwf1 : ∀ t ∈ tl, t.start ≤ t.end_)
    (hwf2 : List.Pairwise (fun a b => a.start ≤ b.start) tl)
    {j e : Nat} (hje : j ≤ e) (he : e < tl.length) :
    (tl.getD j dTok).start ≤ (tl.getD e dTok).end_ := by
  have hj : j < tl.length := lt_of_le_of_lt (le_of_eq rfl) (lt_of_le_of_lt hje he)
  rw [List.getD_eq_getElem tl dTok hj, List.getD_eq_getElem tl dTok he]
  rcases eq_or_lt_of_le hje with rfl | hlt
  · exact hwf1 _ (List.getElem_mem _)
  · have hss := List.pairwise_iff_getElem.mp hwf2 j e hj he hlt
    have hee := hwf1 tl[e] (List.getElem_mem _)
    linarith

/-! ### Result invariants -/

/-- The per-result invariant of the spec: null start iff null end, and
ordered timestamps when present. -/
def resultOK (r : AlignmentResult) : Prop :=
  (r.start = none ↔ r.end_ = none) ∧
    ∀ a b : ℚ, r.start = some a → r.end_ = some b → a ≤ b

lemma stepLine_preserves_resultOK (tl : List WordToken)
    (hwf1 : ∀ t ∈ tl, t.start ≤ t.end_)
    (hwf2 : List.Pairwise (fun a b => a.start ≤ b.start) tl)
    (res : List AlignmentResult) (pos : Nat) (line : List Char)
    (h : ∀ r ∈ res, resultOK r) :
    ∀ r ∈ (stepLine tl (res, pos) line).1, resultOK r := by
  have hnew : ∀ (r' : AlignmentResult) (p2 : Nat),
      stepLine tl (res, pos) line = (res ++ [r'], p2) → resultOK r' →
        ∀ r ∈ (stepLine tl (res, pos) line).1, resultOK r := by
    intro r' p2 heq hok r hr
    rw [heq] at hr
    rcases List.mem_append.mp hr with hr | hr
    · exact h r hr
    · rw [List.mem_singleton.mp hr]; exact hok
  by_cases h1 : stripText line = []
  · exact hnew _ _ (stepLine_blank tl res pos line h1) ⟨by simp, by simp⟩
  · by_cases h2 : splitWs (normalize_text (stripText line)) = []
    · exact hnew _ _ (stepLine_nowords tl res pos line h1 h2) ⟨by simp, by simp⟩
    · by_cases h3 : pos < tl.length
      · refine hnew _ _ (stepLine_matched tl res pos line h1 h2 h3) ⟨by simp, ?_⟩
        intro a b ha hb
        simp only [Option.some.injEq] at ha hb
        subst ha hb
        have hj := searchBest_snd_lt tl (splitWs (normalize_text (stripText line))) pos h3
        have hm : 1 ≤ (splitWs (normalize_text (stripText line))).length :=
          List.length_pos.mpr h2
        exact timeline_mono tl hwf1 hwf2 (by omega) (by omega)
      · rcases hr : res.getLast? with _ | r0
        · exact hnew _ _ (stepLine_gap_empty tl res pos line h1 h2 (by omega) hr)
            ⟨by simp, by intro a b ha hb; simp only [Option.some.injEq] at ha hb; subst ha hb; linarith⟩
        · rcases he : r0.end_ with _ | e
          · rcases hs : r0.start with _ | s
            · exact hnew _ _ (stepLine_gap_null tl res pos line r0 h1 h2 (by omega) hr he hs)
                ⟨by simp, by intro a b ha hb; simp only [Option.some.injEq] at ha hb; subst ha hb; linarith⟩
            · exact hnew _ _ (stepLine_gap_start tl res pos line r0 s h1 h2 (by omega) hr he hs)
                ⟨by simp, by intro a b ha hb; simp only [Option.some.injEq] at ha hb; subst ha hb; linarith⟩
          · exact hnew _ _ (stepLine_gap_end tl res pos line r0 e h1 h2 (by omega) hr he)
              ⟨by simp, by intro a b ha hb; simp only [Option.some.injEq] at ha hb; subst ha hb; linarith⟩

lemma foldl_preserves_resultOK (tl : List WordToken)
    (hwf1 : ∀ t ∈ tl, t.start ≤ t.end_)
    (hwf2 : List.Pairwise (fun a b => a.start ≤ b.start) tl) :
    ∀ (lyrics : List (List Char)) (st : List AlignmentResult × Nat),
      (∀ r ∈ st.1, resultOK r) →
        ∀ r ∈ (lyrics.foldl (stepLine tl) st).1, resultOK r := by
  intro lyrics
  induction lyrics with
  | nil => intro st h; exact h
  | cons line rest ih =>
    intro st h
    rw [List.foldl_cons]
    obtain ⟨res, pos⟩ := st
    exact ih (stepLine tl (res, pos) line)
      (stepLine_preserves_resultOK tl hwf1 hwf2 res pos line h)

/-- Null-consistency alone is preserved with no assumption on the timeline. -/
lemma stepLine_preserves_nullconsist (tl : List WordToken)
    (res : List AlignmentResult) (pos : Nat) (line : List Char)
    (h : ∀ r ∈ res, (r.start = none ↔ r.end_ = none)) :
    ∀ r ∈ (stepLine tl (res, pos) line).1, (r.start = none ↔ r.end_ = none) := by
  have hnew : ∀ (r' : AlignmentResult) (p2 : Nat),
      stepLine tl (res, pos) line = (res ++ [r'], p2) →
        (r'.start = none ↔ r'.end_ = none) →
        ∀ r ∈ (stepLine tl (res, pos) line).1, (r.start = none ↔ r.end_ = none) := by
    intro r' p2 heq hok r hr
    rw [heq] at hr
    rcases List.mem_append.mp hr with hr | hr
    · exact h r hr
    · rw [List.mem_singleton.mp hr]; exact hok
  by_cases h1 : stripText line = []
  · exact hnew _ _ (stepLine_blank tl res pos line h1) (by simp)
  · by_cases h2 : splitWs (normalize_text (stripText line)) = []
    · exact hnew _ _ (stepLine_nowords tl res pos line h1 h2) (by simp)
    · by_cases h3 : pos < tl.length
      · exact hnew _ _ (stepLine_matched tl res pos line h1 h2 h3) (by simp)
      · rcases hr : res.getLast? with _ | r0
        · exact hnew _ _ (stepLine_gap_empty tl res pos line h1 h2 (by omega) hr) (by simp)
        · rcases he : r0.end_ with _ | e
          · rcases hs : r0.start with _ | s0
            · exact hnew _ _ (stepLine_gap_null tl res pos line r0 h1 h2 (by omega) hr he hs)
                (by simp)
            · exact hnew _ _ (stepLine_gap_start tl res pos line r0 s0 h1 h2 (by omega) hr he hs)
                (by simp)
          · exact hnew _ _ (stepLine_gap_end tl res pos line r0 e h1 h2 (by omega) hr he)
              (by simp)

lemma foldl_preserves_nullconsist (tl : List WordToken) :
    ∀ (lyrics : List (List Char)) (st : List AlignmentResult × Nat),
      (∀ r ∈ st.1, (r.start = none ↔ r.end_ = none)) →
        ∀ r ∈ (lyrics.foldl (stepLine tl) st).1, (r.start = none ↔ r.end_ = none) := by
  intro lyrics
  induction lyrics with
  | nil => intro st h; exact h
  | cons line rest ih =>
    intro st h
    rw [List.foldl_cons]
    obtain ⟨res, pos⟩ := st
    exact ih (stepLine tl (res, pos) line)
      (stepLine_preserves_nullconsist tl res pos line h)

/-- The per-pass map of stored line texts: one result per line, holding the
stripped line text, appended in input order. -/
lemma foldl_stepLine_map_line (tl : List WordToken) :
    ∀ (lyrics : List (List Char)) (res : List AlignmentResult) (pos : Nat),
      ((lyrics.foldl (stepLine tl) (res, pos)).1).map (fun r => r.line) =
        res.map (fun r => r.line) ++ lyrics.map stripText := by
  intro lyrics
  induction lyrics with
  | nil => intro res pos; simp
  | cons line rest ih =>
    intro res pos
    rw [List.foldl_cons]
    obtain ⟨r', p2, heq, hline⟩ := stepLine_shape tl res pos line
    rw [heq, ih (res ++ [r']) p2]
    simp [hline]

/-! ### Anchor lemmas -/

lemma anchorPos_lt (tl : List WordToken) (lyrics : List (List Char)) (h : tl ≠ []) :
    anchorPos tl lyrics < tl.length := by
  have hlen : 0 < tl.length := List.length_pos.mpr h
  rw [anchorPos]
  rcases foldl_choice_snd
      (fun (b : Nat × Nat) i =>
        let score := ((firstFewWords lyrics).filter
          (fun w => hasSubstring w (testWindow tl i))).length
        if score > b.1 then (score, i) else b)
      (fun b j => bestStep_choice
        (fun i => ((firstFewWords lyrics).filter
          (fun w => hasSubstring w (testWindow tl i))).length) b j)
      (List.range (min 50 tl.length)) (0, 0) with h1 | h1
  · rw [h1]; exact hlen
  · have := List.mem_range.mp h1
    omega

/-- The window of the source (index arithmetic over `range`) equals the
take/drop phrasing of the specification. -/
lemma testWindow_eq (tl : List WordToken) (i : Nat) :
    testWindow tl i = joinSpace (((tl.drop i).take 15).map (fun t => t.word)) := by
  rw [testWindow]
  congr 1
  apply List.ext_getElem
  · simp
  · intro n h1 h2
    simp only [List.getElem_map, List.getElem_range, List.getElem_take, List.getElem_drop]
    have hlt : n < min 15 (tl.length - i) := by simpa using h1
    rw [List.getD_eq_getElem tl dTok (by omega)]

/-- The source's anchor search equals the specification's (with the amended
reference bag). -/
lemma anchorPos_eq_anchorSpec (tl : List WordToken) (lyrics : List (List Char)) :
    anchorPos tl lyrics = anchorSpec tl lyrics := by
  simp only [anchorPos, anchorSpec]
  congr 1
  apply List.foldl_ext
  intro b i hi
  rw [List.countP_eq_length_filter, firstFewWords, testWindow_eq]

/-! ### Claim theorems -/

/-- **C1** (LineMatcher core search): for every timeline, every pointer inside
it, and every lyric line whose normalized text has at least one word, the
per-line step emits exactly the result prescribed by the specification: the
offset chosen by `bestPairSpec` (candidates `j` in
`[pointer, min(pointer+50, |tl|))` with `j + m ≤ |tl|`, scored by the plain
similarity sum, best tracked with strict `>`, ties and the no-candidate case
defaulting to the pointer), `start = timeline[j*].start`,
`end = timeline[min(j*+m-1, |tl|-1)].end`, and the new pointer is that end
index plus one. -/
theorem lineMatcher_core (tl : List WordToken) (res : List AlignmentResult) (pos : Nat)
    (line : List Char)
    (hW : splitWs (normalize_text (stripText line)) ≠ [])
    (hpos : pos < tl.length) :
    stepLine tl (res, pos) line =
      (res ++ [⟨stripText line,
        some ((tl.getD (bestOffsetSpec tl (splitWs (normalize_text (stripText line))) pos)
          dTok).start),
        some ((tl.getD (min (bestOffsetSpec tl (splitWs (normalize_text (stripText line))) pos +
          (splitWs (normalize_text (stripText line))).length - 1) (tl.length - 1))
          dTok).end_)⟩],
        min (bestOffsetSpec tl (splitWs (normalize_text (stripText line))) pos +
          (splitWs (normalize_text (stripText line))).length - 1) (tl.length - 1) + 1) := by
  have h1 : stripText line ≠ [] := by
    intro h
    apply hW
    rw [h]
    rfl
  simp only [bestOffsetSpec, ← searchBest_eq_bestPairSpec]
  exact stepLine_matched tl res pos line h1 hW hpos

/-- Witness for C1 at a concrete input: one segment `"a"` over `[0, 1]`,
line `"a"`, pointer 0. -/
theorem lineMatcher_core_witness :
    splitWs (normalize_text (stripText ['a'])) ≠ [] ∧
    0 < ([⟨['a'], 0, 1⟩] : List WordToken).length ∧
    stepLine [⟨['a'], 0, 1⟩] ([], 0) ['a'] =
      ([⟨stripText ['a'],
        some (([⟨['a'], 0, 1⟩] : List WordToken).getD
          (bestOffsetSpec [⟨['a'], 0, 1⟩] (splitWs (normalize_text (stripText ['a']))) 0)
          dTok).start,
        some (([⟨['a'], 0, 1⟩] : List WordToken).getD
          (min (bestOffsetSpec [⟨['a'], 0, 1⟩] (splitWs (normalize_text (stripText ['a']))) 0 +
            (splitWs (normalize_text (stripText ['a']))).length - 1)
            (([⟨['a'], 0, 1⟩] : List WordToken).length - 1))
          dTok).end_⟩],
        min (bestOffsetSpec [⟨['a'], 0, 1⟩] (splitWs (normalize_text (stripText ['a']))) 0 +
          (splitWs (normalize_text (stripText ['a']))).length - 1)
          (([⟨['a'], 0, 1⟩] : List WordToken).length - 1) + 1) :=
  ⟨by decide, by decide,
    lineMatcher_core [⟨['a'], 0, 1⟩] [] 0 ['a'] (by decide) (by decide)⟩

/-- **C2** counterexample: the claim "returns 1.0 iff the lower-cased words
are identical" fails at `("ab", "ba")`, where the character sets coincide and
the Jaccard ratio is 1.0 although the words differ; and the claim "returns
0.0 if either word is empty" fails at `("", "")`, where the equal-words
branch returns 1.0. -/
theorem wordSimilarity_claim_counterexample :
    word_similarity ['a', 'b'] ['b', 'a'] = 1 ∧
    ['a', 'b'].map Char.toLower ≠ ['b', 'a'].map Char.toLower ∧
    word_similarity [] [] = 1 :=
  ⟨(word_similarity_eq_one_iff _ _).mpr (by decide), by decide, by decide⟩

/-- **C2** (amended): `word_similarity` always lands in `[0, 1]`; it returns
1.0 exactly when the case-folded character sets of the two words coincide (in
particular on identical lower-cased words, and on two empty words); it
returns 0.0 when exactly one word is empty; on distinct lower-cased non-empty
words it returns the Jaccard similarity of the case-folded character sets; it
is symmetric; and it maps every word paired with itself to 1.0. -/
theorem wordSimilarity_contract :
    ∀ w1 w2 : List Char,
      0 ≤ word_similarity w1 w2 ∧ word_similarity w1 w2 ≤ 1 ∧
      (word_similarity w1 w2 = 1 ↔
        (w1.map Char.toLower).toFinset = (w2.map Char.toLower).toFinset) ∧
      (w1 = [] → w2 ≠ [] → word_similarity w1 w2 = 0) ∧
      (w2 = [] → w1 ≠ [] → word_similarity w1 w2 = 0) ∧
      (w1.map Char.toLower ≠ w2.map Char.toLower → w1 ≠ [] → w2 ≠ [] →
        word_similarity w1 w2 =
          (((w1.map Char.toLower).toFinset ∩ (w2.map Char.toLower).toFinset).card : ℚ) /
            (((w1.map Char.toLower).toFinset ∪ (w2.map Char.toLower).toFinset).card : ℚ)) ∧
      word_similarity w1 w2 = word_similarity w2 w1 ∧
      word_similarity w1 w1 = 1 := by
  intro w1 w2
  refine ⟨word_similarity_nonneg w1 w2, word_similarity_le_one w1 w2,
    word_similarity_eq_one_iff w1 w2, ?_, ?_, ?_, word_similarity_comm w1 w2, ?_⟩
  · intro h1 h2
    subst h1
    have hc1 : ¬ (List.map Char.toLower [] = w2.map Char.toLower) := by
      intro hh
      exact h2 (List.map_eq_nil_iff.mp hh.symm)
    simp only [word_similarity]
    rw [if_neg hc1, if_pos (Or.inl (by simp))]
  · intro h2 h1
    subst h2
    have hc1 : ¬ (w1.map Char.toLower = List.map Char.toLower []) := by
      intro hh
      exact h1 (List.map_eq_nil_iff.mp hh)
    simp only [word_similarity]
    rw [if_neg hc1, if_pos (Or.inr (by simp))]
  · intro hne h1 h2
    have hc : ¬ ((w1.map Char.toLower).toFinset = ∅ ∨ (w2.map Char.toLower).toFinset = ∅) := by
      push_neg
      constructor
      · rw [Ne, List.toFinset_eq_empty_iff, List.map_eq_nil_iff]
        exact h1
      · rw [Ne, List.toFinset_eq_empty_iff, List.map_eq_nil_iff]
        exact h2
    simp only [word_similarity]
    rw [if_neg hne, if_neg hc]
  · simp [word_similarity]

/-- Witness for C2 at concrete inputs, discharging the conditional clauses:
one empty word gives 0.0 both ways round, and two overlapping distinct words
give their Jaccard ratio. -/
theorem wordSimilarity_contract_witness :
    word_similarity [] ['a'] = 0 ∧ word_similarity ['a'] [] = 0 ∧
    word_similarity ['a', 'b'] ['b', 'c'] =
      (((['a', 'b'].map Char.toLower).toFinset ∩ (['b', 'c'].map Char.toLower).toFinset).card : ℚ) /
        (((['a', 'b'].map Char.toLower).toFinset ∪ (['b', 'c'].map Char.toLower).toFinset).card : ℚ) :=
  ⟨(wordSimilarity_contract [] ['a']).2.2.2.1 rfl (by decide),
   (wordSimilarity_contract ['a'] []).2.2.2.2.1 rfl (by decide),
   (wordSimilarity_contract ['a', 'b'] ['b', 'c']).2.2.2.2.2.1 (by decide) (by decide) (by decide)⟩

/-- **C3** counterexample: with a timeline of fifteen `"x"` tokens followed by
one `"a"` token and lyric lines `["", "", "", "a"]` (the first non-blank line
is the fourth), the source computes an empty reference bag from the first
three lines and returns the default anchor 0, while the claim's reading
(reference bag from the first 3 non-blank lines of the whole list) scores
index 1 the best and returns 1. -/
theorem anchorLocator_claim_counterexample :
    anchorPos (List.replicate 15 (⟨['x'], 0, 0⟩ : WordToken) ++ [⟨['a'], 0, 0⟩])
        [[], [], [], ['a']] ≠
      anchorSpecOrig (List.replicate 15 (⟨['x'], 0, 0⟩ : WordToken) ++ [⟨['a'], 0, 0⟩])
        [[], [], [], ['a']] := by decide

/-- **C3** (amended): the anchor search behaves exactly as the claim states —
candidates `i` in `[0, min(50, |timeline|))` scored by counting the reference
words occurring as substrings of the window of up to 15 consecutive timeline
words from `i`, best tracked with strict `>`, ties keeping the smallest
index, defaulting to 0 — with the reference bag built from the non-blank
lines among the first 3 lyric lines (not the first 3 non-blank lines of the
whole list). -/
theorem anchorLocator_amended (tl : List WordToken) (lyrics : List (List Char)) :
    anchorPos tl lyrics = anchorSpec tl lyrics :=
  anchorPos_eq_anchorSpec tl lyrics

/-! ### Concrete evaluation helpers -/

/-- One-token timeline, matching line: the step matches at offset 0. -/
lemma stepLine_eval_a :
    stepLine [⟨['a'], 0, 1⟩] ([], 0) ['a'] = ([⟨['a'], some 0, some 1⟩], 1) := by
  have h1 : stripText ['a'] = ['a'] := by decide
  have h2 : splitWs (normalize_text ['a']) = [['a']] := by decide
  have h3 : word_similarity ['a'] ['a'] = 1 := by decide
  have h4 : List.range 1 = [0] := by simp [List.range_succ]
  simp only [stepLine, h1, h2]
  norm_num [searchBest, scoreAt, List.range', List.takeWhile, Nat.min_def, dTok, h2, h3, h4]

/-- The timeline built from the single segment `("a", 0, 1)`. -/
lemma buildTimeline_eval_a :
    buildTimeline [⟨['a'], 0, 1⟩] = [⟨['a'], 0, 1⟩] := by
  have h2 : splitWs (normalize_text ['a']) = [['a']] := by decide
  have h4 : List.range 1 = [0] := by simp [List.range_succ]
  simp only [buildTimeline]
  norm_num [tokensOf, h2, h4]

/-- Full pipeline on the single segment `("a", 0, 1)` and single line `"a"`. -/
lemma fallback_align_eval_a :
    fallback_align [⟨['a'], 0, 1⟩] [['a']] = [⟨['a'], some 0, some 1⟩] := by
  have hanchor : anchorPos [⟨['a'], 0, 1⟩] [['a']] = 0 := by decide
  simp only [fallback_align, buildTimeline_eval_a]
  rw [if_neg (by decide), hanchor, List.foldl_cons, stepLine_eval_a, List.foldl_nil]

/-- **C4** (GapFiller): whenever the timeline is exhausted
(`pointer ≥ |timeline|`) for a non-blank line with at least one normalized
word, the emitted result is `start = prev.end, end = prev.end + 2` when the
immediately preceding result has non-null end; else
`start = prev.start, end = prev.start + 2` when it has non-null start; else
`start = 0, end = 2` (also when there is no previous result); the pointer is
unchanged; and two consecutive such lines chain: the second starts at the
first one's synthesized end and spans another 2.0 seconds, so the
synthesized timestamps strictly increase. -/
theorem gapFiller_spec :
    (∀ (tl : List WordToken) (res : List AlignmentResult) (pos : Nat) (line : List Char)
        (r : AlignmentResult) (e : ℚ),
      stripText line ≠ [] → splitWs (normalize_text (stripText line)) ≠ [] →
      tl.length ≤ pos → res.getLast? = some r → r.end_ = some e →
      stepLine tl (res, pos) line = (res ++ [⟨stripText line, some e, some (e + 2)⟩], pos)) ∧
    (∀ (tl : List WordToken) (res : List AlignmentResult) (pos : Nat) (line : List Char)
        (r : AlignmentResult) (s : ℚ),
      stripText line ≠ [] → splitWs (normalize_text (stripText line)) ≠ [] →
      tl.length ≤ pos → res.getLast? = some r → r.end_ = none → r.start = some s →
      stepLine tl (res, pos) line = (res ++ [⟨stripText line, some s, some (s + 2)⟩], pos)) ∧
    (∀ (tl : List WordToken) (res : List AlignmentResult) (pos : Nat) (line : List Char)
        (r : AlignmentResult),
      stripText line ≠ [] → splitWs (normalize_text (stripText line)) ≠ [] →
      tl.length ≤ pos → res.getLast? = some r → r.end_ = none → r.start = none →
      stepLine tl (res, pos) line = (res ++ [⟨stripText line, some 0, some (0 + 2)⟩], pos)) ∧
    (∀ (tl : List WordToken) (pos : Nat) (line : List Char),
      stripText line ≠ [] → splitWs (normalize_text (stripText line)) ≠ [] →
      tl.length ≤ pos →
      stepLine tl ([], pos) line = ([⟨stripText line, some 0, some (0 + 2)⟩], pos)) ∧
    (∀ (tl : List WordToken) (res : List AlignmentResult) (pos : Nat) (l1 l2 : List Char),
      stripText l1 ≠ [] → splitWs (normalize_text (stripText l1)) ≠ [] →
      stripText l2 ≠ [] → splitWs (normalize_text (stripText l2)) ≠ [] →
      tl.length ≤ pos →
      ∃ x : ℚ,
        ((stepLine tl (res, pos) l1).1).getLast? =
          some ⟨stripText l1, some x, some (x + 2)⟩ ∧
        ((stepLine tl (stepLine tl (res, pos) l1) l2).1).getLast? =
          some ⟨stripText l2, some (x + 2), some (x + 2 + 2)⟩ ∧
        x < x + 2 ∧ x + 2 < x + 2 + 2) := by
  refine ⟨?_, ?_, ?_, ?_, ?_⟩
  · intro tl res pos line r e h1 h2 h3 h4 h5
    exact stepLine_gap_end tl res pos line r e h1 h2 h3 h4 h5
  · intro tl res pos line r s h1 h2 h3 h4 h5 h6
    exact stepLine_gap_start tl res pos line r s h1 h2 h3 h4 h5 h6
  · intro tl res pos line r h1 h2 h3 h4 h5 h6
    exact stepLine_gap_null tl res pos line r h1 h2 h3 h4 h5 h6
  · intro tl pos line h1 h2 h3
    have := stepLine_gap_empty tl [] pos line h1 h2 h3 rfl
    simpa using this
  · intro tl res pos l1 l2 h1 h2 h1' h2' h3
    have hchain : ∀ (x : ℚ), stepLine tl (res, pos) l1 =
        (res ++ [⟨stripText l1, some x, some (x + 2)⟩], pos) →
        ∃ x : ℚ,
          ((stepLine tl (res, pos) l1).1).getLast? =
            some ⟨stripText l1, some x, some (x + 2)⟩ ∧
          ((stepLine tl (stepLine tl (res, pos) l1) l2).1).getLast? =
            some ⟨stripText l2, some (x + 2), some (x + 2 + 2)⟩ ∧
          x < x + 2 ∧ x + 2 < x + 2 + 2 := by
      intro x hx
      refine ⟨x, ?_, ?_, by linarith, by linarith⟩
      · rw [hx]
        exact List.getLast?_concat _
      · rw [hx]
        have hstep2 := stepLine_gap_end tl (res ++ [⟨stripText l1, some x, some (x + 2)⟩]) pos
          l2 ⟨stripText l1, some x, some (x + 2)⟩ (x + 2) h1' h2' h3
          (List.getLast?_concat _) rfl
        rw [hstep2]
        exact List.getLast?_concat _
    rcases hr : res.getLast? with _ | r0
    · exact hchain 0 (by simpa using stepLine_gap_empty tl res pos l1 h1 h2 h3 hr)
    · rcases he : r0.end_ with _ | e
      · rcases hs : r0.start with _ | s0
        · exact hchain 0 (stepLine_gap_null tl res pos l1 r0 h1 h2 h3 hr he hs)
        · exact hchain s0 (stepLine_gap_start tl res pos l1 r0 s0 h1 h2 h3 hr he hs)
      · exact hchain e (stepLine_gap_end tl res pos l1 r0 e h1 h2 h3 hr he)

/-- Witness for C4: a one-token timeline already consumed (`pointer = 1`),
previous result `("a", 0, 1)`, gap-filled line `"b"` gets `(1, 1+2)`, and two
unmatched lines after an empty results list chain as `(0, 0+2)` then
`(0+2, 0+2+2)`. -/
theorem gapFiller_spec_witness :
    stepLine [⟨['a'], 0, 1⟩] ([⟨['a'], some 0, some 1⟩], 1) ['b'] =
      ([⟨['a'], some 0, some 1⟩] ++ [⟨stripText ['b'], some 1, some (1 + 2)⟩], 1) :=
  gapFiller_spec.1 [⟨['a'], 0, 1⟩] [⟨['a'], some 0, some 1⟩] 1 ['b']
    ⟨['a'], some 0, some 1⟩ 1 (by decide) (by decide) (by decide) (by decide) (by decide)

/-- **C5** (null-timing consistency and ordering): for well-formed,
chronologically ordered segments and any lyric lines, every result of
`fallback_align` has null start iff null end, and ordered timestamps
(`end ≥ start`) whenever they are present. -/
theorem nullTiming_invariant (segs : List Segment) (lyrics : List (List Char))
    (h1 : ∀ s ∈ segs, s.start ≤ s.end_)
    (h2 : List.Pairwise (fun a b => a.end_ ≤ b.start) segs) :
    ∀ r ∈ fallback_align segs lyrics,
      (r.start = none ↔ r.end_ = none) ∧
        ∀ a b : ℚ, r.start = some a → r.end_ = some b → a ≤ b := by
  intro r hr
  simp only [fallback_align] at hr
  by_cases htl : buildTimeline segs = []
  · rw [if_pos htl] at hr
    obtain ⟨l, hl, rfl⟩ := List.mem_map.mp hr
    exact ⟨by simp, by simp⟩
  · rw [if_neg htl] at hr
    obtain ⟨hwf1, hwf2⟩ := buildTimeline_wf segs h1 h2
    exact foldl_preserves_resultOK (buildTimeline segs) hwf1 hwf2 lyrics
      ([], anchorPos (buildTimeline segs) lyrics) (by simp) r hr

/-- Witness for C5 on the one-segment, one-line input: the emitted result
`("a", 0, 1)` satisfies both clauses. -/
theorem nullTiming_invariant_witness :
    ((⟨['a'], some 0, some 1⟩ : AlignmentResult).start = none ↔
      (⟨['a'], some 0, some 1⟩ : AlignmentResult).end_ = none) :=
  (nullTiming_invariant [⟨['a'], 0, 1⟩] [['a']]
    (by intro s hs; rw [List.mem_singleton.mp hs]; norm_num)
    (by simp)
    ⟨['a'], some 0, some 1⟩
    (by rw [fallback_align_eval_a]; exact List.mem_singleton_self _)).1

/-! ### Output shape helpers -/

lemma fallback_map_line_empty (segs : List Segment) (lyrics : List (List Char))
    (h : buildTimeline segs = []) :
    (fallback_align segs lyrics).map (fun r => r.line) = lyrics := by
  simp only [fallback_align, if_pos h]
  rw [List.map_map]
  have hcomp : ((fun r => r.line) ∘ fun l =>
      ({ line := l, start := none, end_ := none } : AlignmentResult)) = fun l => l := rfl
  rw [hcomp]
  exact List.map_id' lyrics

lemma fallback_map_line (segs : List Segment) (lyrics : List (List Char))
    (h : buildTimeline segs ≠ []) :
    (fallback_align segs lyrics).map (fun r => r.line) = lyrics.map stripText := by
  simp only [fallback_align, if_neg h]
  have := foldl_stepLine_map_line (buildTimeline segs) lyrics []
    (anchorPos (buildTimeline segs) lyrics)
  simpa using this

lemma fallback_length (segs : List Segment) (lyrics : List (List Char)) :
    (fallback_align segs lyrics).length = lyrics.length := by
  by_cases h : buildTimeline segs = []
  · have := congrArg List.length (fallback_map_line_empty segs lyrics h)
    simpa using this
  · have := congrArg List.length (fallback_map_line segs lyrics h)
    simpa using this

/-- **C6** (output length and order): `fallback_align` returns exactly one
result per input lyric line, in input order: the list of stored line texts is
the input list itself on the empty-timeline path and the list of stripped
input lines otherwise, and the lengths agree. -/
theorem output_length_order (segs : List Segment) (lyrics : List (List Char)) :
    (fallback_align segs lyrics).length = lyrics.length ∧
    (fallback_align segs lyrics).map (fun r => r.line) =
      if buildTimeline segs = [] then lyrics else lyrics.map stripText := by
  refine ⟨fallback_length segs lyrics, ?_⟩
  by_cases h : buildTimeline segs = []
  · rw [if_pos h]
    exact fallback_map_line_empty segs lyrics h
  · rw [if_neg h]
    exact fallback_map_line segs lyrics h

/-- **C8** counterexample: the line `" a"` (leading space) is stored as
`"a"` in the result — the stored text is the stripped line, not the original
input line. -/
theorem linePreservation_counterexample :
    (fallback_align [⟨['a'], 0, 1⟩] [[' ', 'a']]).map (fun r => r.line) ≠ [[' ', 'a']] := by
  rw [fallback_map_line [⟨['a'], 0, 1⟩] [[' ', 'a']] (by decide)]
  decide

/-- **C8** (amended): on the alignment path the stored `line` field of the
`i`-th result is the whitespace-stripped `i`-th input line (so blank lines
store `""`); on the empty-timeline path the original line is stored
verbatim.  Normalization (case folding, punctuation removal) is never
applied to the stored text. -/
theorem linePreservation_amended (segs : List Segment) (lyrics : List (List Char))
    (i : Nat) (hi : i < lyrics.length) :
    ((fallback_align segs lyrics).getD i ⟨[], none, none⟩).line =
      if buildTimeline segs = [] then lyrics.getD i []
      else stripText (lyrics.getD i []) := by
  have hlen : i < (fallback_align segs lyrics).length := by
    rw [fallback_length segs lyrics]; exact hi
  have hmlen : i < ((fallback_align segs lyrics).map (fun r => r.line)).length := by
    rw [List.length_map]; exact hlen
  rw [List.getD_eq_getElem _ _ hlen, List.getD_eq_getElem _ _ hi]
  have hmap : ((fallback_align segs lyrics).map (fun r => r.line)).getD i [] =
      (fallback_align segs lyrics)[i].line := by
    rw [List.getD_eq_getElem _ _ hmlen, List.getElem_map]
  by_cases h : buildTimeline segs = []
  · rw [if_pos h, ← hmap, fallback_map_line_empty segs lyrics h, List.getD_eq_getElem _ _ hi]
  · rw [if_neg h, ← hmap, fallback_map_line segs lyrics h]
    have hmlen2 : i < (lyrics.map stripText).length := by rw [List.length_map]; exact hi
    rw [List.getD_eq_getElem _ _ hmlen2, List.getElem_map]

/-- Witness for C8 (amended) at the concrete input of the counterexample:
with a non-empty timeline the stored text of result 0 is the stripped line. -/
theorem linePreservation_amended_witness :
    ((fallback_align [⟨['a'], 0, 1⟩] [[' ', 'a']]).getD 0 ⟨[], none, none⟩).line =
      if buildTimeline [⟨['a'], 0, 1⟩] = [] then [[' ', 'a']].getD 0 []
      else stripText ([[' ', 'a']].getD 0 []) :=
  linePreservation_amended [⟨['a'], 0, 1⟩] [[' ', 'a']] 0 (by decide)

/-- **C7** (monotonic pointer): the search never chooses an offset before the
current pointer; one step never decreases the pointer; a whole pass never
decreases it; and a matched line (pointer inside the timeline, at least one
normalized word) moves the pointer strictly past its chosen offset, so the
offsets chosen by successive matched lines are strictly increasing. -/
theorem pointer_monotone :
    (∀ (tl : List WordToken) (W : List (List Char)) (pos : Nat),
      pos ≤ (searchBest tl W pos).2) ∧
    (∀ (tl : List WordToken) (res : List AlignmentResult) (pos : Nat) (line : List Char),
      pos ≤ (stepLine tl (res, pos) line).2) ∧
    (∀ (tl : List WordToken) (lyrics : List (List Char)) (st : List AlignmentResult × Nat),
      st.2 ≤ (lyrics.foldl (stepLine tl) st).2) ∧
    (∀ (tl : List WordToken) (res : List AlignmentResult) (pos : Nat) (line : List Char),
      stripText line ≠ [] → splitWs (normalize_text (stripText line)) ≠ [] →
      pos < tl.length →
      (searchBest tl (splitWs (normalize_text (stripText line))) pos).2 <
        (stepLine tl (res, pos) line).2) := by
  refine ⟨searchBest_snd_ge, stepLine_snd_ge,
    fun tl lyrics st => foldl_stepLine_snd_ge tl lyrics st, ?_⟩
  intro tl res pos line h1 h2 h3
  rw [stepLine_matched tl res pos line h1 h2 h3]
  have hj := searchBest_snd_lt tl (splitWs (normalize_text (stripText line))) pos h3
  have hm : 1 ≤ (splitWs (normalize_text (stripText line))).length := List.length_pos.mpr h2
  simp only
  omega

/-- Witness for C7: on the one-token timeline with line `"a"` the chosen
offset 0 lies strictly below the advanced pointer. -/
theorem pointer_monotone_witness :
    (searchBest [⟨['a'], 0, 1⟩] (splitWs (normalize_text (stripText ['a']))) 0).2 <
      (stepLine [⟨['a'], 0, 1⟩] ([], 0) ['a']).2 :=
  pointer_monotone.2.2.2 [⟨['a'], 0, 1⟩] [] 0 ['a'] (by decide) (by decide) (by decide)

/-- **C9** (totality): the embedding of `fallback_align` and all its
components are total functions (they are accepted as plain recursive
definitions), and the individual safety facts hold: an empty timeline maps
every line to null timing; a segment with no normalized words contributes no
tokens (so the per-word division is only taken with a positive word count); a
zero-duration segment yields only zero-width tokens; a line that normalizes
to no words gets null timing; and in the matched branch both timeline
indices, the chosen offset and the clamped end index, are in bounds. -/
theorem alignment_totality :
    (∀ (segs : List Segment) (lyrics : List (List Char)),
      buildTimeline segs = [] →
      fallback_align segs lyrics = lyrics.map (fun l => ⟨l, none, none⟩)) ∧
    (∀ seg : Segment, splitWs (normalize_text seg.text) = [] → tokensOf seg = []) ∧
    (∀ seg : Segment, seg.end_ = seg.start → ∀ t ∈ tokensOf seg, t.start = t.end_) ∧
    (∀ (tl : List WordToken) (res : List AlignmentResult) (pos : Nat) (line : List Char),
      stripText line ≠ [] → splitWs (normalize_text (stripText line)) = [] →
      stepLine tl (res, pos) line = (res ++ [⟨stripText line, none, none⟩], pos)) ∧
    (∀ (tl : List WordToken) (W : List (List Char)) (pos : Nat),
      pos < tl.length →
      (searchBest tl W pos).2 < tl.length ∧
        min ((searchBest tl W pos).2 + W.length - 1) (tl.length - 1) < tl.length) := by
  refine ⟨?_, ?_, ?_, ?_, ?_⟩
  · intro segs lyrics h
    simp only [fallback_align, if_pos h]
  · intro seg h
    simp only [tokensOf]
    rw [if_pos h]
  · intro seg h t ht
    simp only [tokensOf] at ht
    by_cases hw : splitWs (normalize_text seg.text) = []
    · rw [if_pos hw] at ht
      exact absurd ht (List.not_mem_nil t)
    · rw [if_neg hw] at ht
      obtain ⟨i, hi, rfl⟩ := List.mem_map.mp ht
      have hz : seg.end_ - seg.start = 0 := by rw [h]; ring
      dsimp only
      rw [hz, zero_div, mul_zero, add_zero, add_zero]
  · intro tl res pos line h1 h2
    exact stepLine_nowords tl res pos line h1 h2
  · intro tl W pos h
    have := searchBest_snd_lt tl W pos h
    omega

/-- Witness for C9: no segments at all gives the all-null result; the
zero-duration segment `("a b", 1, 1)` yields only zero-width tokens; and a
pure-punctuation line gets null timing. -/
theorem alignment_totality_witness :
    fallback_align [] [['a']] = [['a']].map (fun l => ⟨l, none, none⟩) ∧
    stepLine [⟨['a'], 0, 1⟩] ([], 0) ['!', '?'] =
      ([] ++ [⟨stripText ['!', '?'], none, none⟩], 0) :=
  ⟨alignment_totality.1 [] [['a']] rfl,
   alignment_totality.2.2.2.1 [⟨['a'], 0, 1⟩] [] 0 ['!', '?'] (by decide) (by decide)⟩

/-- Every pass whose state holds at least one result keeps at least one
result: each step appends exactly one. -/
lemma foldl_stepLine_nonempty (tl : List WordToken) :
    ∀ (lyrics : List (List Char)) (st : List AlignmentResult × Nat),
      st.1 ≠ [] → (lyrics.foldl (stepLine tl) st).1 ≠ [] := by
  intro lyrics
  induction lyrics with
  | nil => intro st h; exact h
  | cons line rest ih =>
    intro st h
    rw [List.foldl_cons]
    obtain ⟨res, pos⟩ := st
    obtain ⟨r, p2, heq, -⟩ := stepLine_shape tl res pos line
    rw [heq]
    exact ih _ (by simp)

/-- **C10** (implicit; the gap filler's `prev.start` branch is unreachable):
the anchor always starts inside a non-empty timeline; under the
null-consistency invariant (which every reachable results list satisfies),
the timeline-exhaustion fallback either copies a non-null previous end or
emits exactly `(0, 2)` — the "previous end null but previous start non-null"
case never executes; and whenever a prefix of the pass has driven the
pointer past the timeline, its results list is non-empty. -/
theorem gapFiller_prev_start_unreachable :
    (∀ (tl : List WordToken) (lyrics : List (List Char)), tl ≠ [] →
      anchorPos tl lyrics < tl.length) ∧
    (∀ (tl : List WordToken) (res : List AlignmentResult) (pos : Nat) (line : List Char),
      (∀ r ∈ res, (r.start = none ↔ r.end_ = none)) →
      tl.length ≤ pos → stripText line ≠ [] →
      splitWs (normalize_text (stripText line)) ≠ [] →
      ((∃ r e, res.getLast? = some r ∧ r.end_ = some e ∧
        stepLine tl (res, pos) line =
          (res ++ [⟨stripText line, some e, some (e + 2)⟩], pos)) ∨
       ((∀ r, res.getLast? = some r → r.end_ = none → r.start = none) ∧
        stepLine tl (res, pos) line =
          (res ++ [⟨stripText line, some 0, some (0 + 2)⟩], pos)))) ∧
    (∀ (segs : List Segment) (lyrics pre : List (List Char)),
      buildTimeline segs ≠ [] →
      (buildTimeline segs).length ≤
        (pre.foldl (stepLine (buildTimeline segs))
          ([], anchorPos (buildTimeline segs) lyrics)).2 →
      (pre.foldl (stepLine (buildTimeline segs))
        ([], anchorPos (buildTimeline segs) lyrics)).1 ≠ []) := by
  refine ⟨fun tl lyrics h => anchorPos_lt tl lyrics h, ?_, ?_⟩
  · intro tl res pos line hcons h3 h1 h2
    rcases hr : res.getLast? with _ | r0
    · right
      constructor
      · intro r hr'
        exact absurd hr' (by simp)
      · exact stepLine_gap_empty tl res pos line h1 h2 h3 hr
    · rcases he : r0.end_ with _ | e
      · right
        have hmem : r0 ∈ res := List.mem_of_mem_getLast? hr
        have hs : r0.start = none := (hcons r0 hmem).mpr he
        constructor
        · intro r hr' hre
          injection hr' with hh
          rw [← hh]
          exact hs
        · exact stepLine_gap_null tl res pos line r0 h1 h2 h3 hr he hs
      · left
        exact ⟨r0, e, rfl, he, stepLine_gap_end tl res pos line r0 e h1 h2 h3 hr he⟩
  · intro segs lyrics pre htl hpos
    cases pre with
    | nil =>
      exfalso
      simp only [List.foldl_nil] at hpos
      have := anchorPos_lt (buildTimeline segs) lyrics htl
      omega
    | cons line rest =>
      rw [List.foldl_cons]
      obtain ⟨r, p2, heq, -⟩ := stepLine_shape (buildTimeline segs) []
        (anchorPos (buildTimeline segs) lyrics) line
      rw [List.foldl_cons] at *
      rw [heq]
      exact foldl_stepLine_nonempty _ rest _ (by simp)

/-- Witness for C10: after the first line `"a"` consumes the single timeline
token the pointer equals the timeline length, and the results list of that
prefix is non-empty. -/
theorem gapFiller_prev_start_unreachable_witness :
    ([['a']].foldl (stepLine (buildTimeline [⟨['a'], 0, 1⟩]))
      ([], anchorPos (buildTimeline [⟨['a'], 0, 1⟩]) [['a'], ['b']])).1 ≠ [] :=
  gapFiller_prev_start_unreachable.2.2 [⟨['a'], 0, 1⟩] [['a'], ['b']] [['a']]
    (by decide)
    (by
      rw [buildTimeline_eval_a]
      have ha : anchorPos [⟨['a'], 0, 1⟩] [['a'], ['b']] = 0 := by decide
      rw [ha, List.foldl_cons, List.foldl_nil, stepLine_eval_a]
      simp)
